import Mathlib

/-
Verification development for the AMEX fraud-detection dashboard (app.py).
The numeric core (safe_binning, plot_event_rate_bar) is shallowly embedded
over exact rationals, with an explicit value type carrying the NaN and
infinity markers of the float columns.  The pandas and numpy primitives the
code calls (dropna, np.unique, pd.cut, pd.qcut, groupby-agg) are modelled
from their documented semantics; floating-point rounding is replaced by
exact rational arithmetic.
-/

namespace AmexApp

/-- Scalar cell value of a float column: a finite rational, NaN, or a signed
infinity.  NaN models both missing data and float nan. -/
inductive Val where
  | nan : Val
  | pinf : Val
  | ninf : Val
  | num (q : ℚ) : Val
deriving DecidableEq

/-- Predicate for pandas isna: true exactly on NaN (infinities are not na). -/
def Val.isNA : Val → Bool
  | .nan => true
  | _ => false

/-- True on the two infinities. -/
def Val.isInf : Val → Bool
  | .pinf => true
  | .ninf => true
  | _ => false

/-- True on finite numeric values. -/
def Val.isFiniteV : Val → Bool
  | .num _ => true
  | _ => false

/-- Models Series.dropna: removes NaN entries only (infinities are kept). -/
def dropna (s : List Val) : List Val := s.filter (fun v => !v.isNA)

/-- Models Series.replace([np.inf, -np.inf], np.nan). -/
def replaceInfWithNan (v : Val) : Val :=
  match v with
  | .pinf => .nan
  | .ninf => .nan
  | v => v

/-- The finite entries of a series, as rationals. -/
def finiteVals (s : List Val) : List ℚ :=
  s.filterMap (fun v => match v with | .num q => some q | _ => none)

/-- Models len(np.unique(series)): the number of distinct values. -/
def nuniqueList (s : List Val) : ℕ := s.dedup.length

/-- Bin label attached to a row: a half-open interval from cut or qcut, a raw
value from the identity fallback, or the nan label for unassigned rows. -/
inductive BinLabel where
  | interval (lo hi : ℚ) : BinLabel
  | raw (v : Val) : BinLabel
  | nanLabel : BinLabel
deriving DecidableEq

/-- Models np.searchsorted with side left: the first index whose edge is at
least v, or the length when every edge is below v. -/
def searchsortedLeft (edges : List ℚ) (v : ℚ) : ℕ :=
  match edges with
  | [] => 0
  | e :: t => if v ≤ e then 0 else searchsortedLeft t v + 1

/-- Models the interval lookup of pandas cut / qcut on right-closed bins:
index j means v lies in (edges j, edges (j+1)], the first bin additionally
admitting v = edges 0 when includeLowest is set; none means out of range. -/
def bucketIdx (edges : List ℚ) (includeLowest : Bool) (v : ℚ) : Option ℕ :=
  let i0 := searchsortedLeft edges v
  let i := if includeLowest && decide (v = edges.getD 0 0) then 1 else i0
  if i = 0 || i = edges.length then none else some (i - 1)

/-- The label pandas attaches to value v for the given edges. -/
def labelOf (edges : List ℚ) (includeLowest : Bool) (v : ℚ) : BinLabel :=
  match bucketIdx edges includeLowest v with
  | some j => .interval (edges.getD j 0) (edges.getD (j + 1) 0)
  | none => .nanLabel

/-- Models np.linspace a b over k segments (k + 1 points, exact rationals). -/
def linspaceQ (a b : ℚ) (k : ℕ) : List ℚ :=
  (List.range (k + 1)).map (fun i => a + (b - a) * i / k)

/-- Lowers the first edge, as pandas cut does to make the minimum fall in the
first right-closed bin. -/
def adjustHead (adj : ℚ) : List ℚ → List ℚ
  | [] => []
  | e :: t => (e - adj) :: t

/-- Models pd.cut(series, bins=nb, retbins=True) with an integer bin count:
equal-width edges over the observed range, the first edge lowered by 0.1
percent of the range (or the range widened symmetrically when it is
degenerate).  Fails (raises in pandas) on a non-positive bin count, on an
empty or all-NaN series, and when the data contains an infinity. -/
def cutInt (s : List Val) (nb : ℕ) : Except Unit (List BinLabel × List Val) :=
  if nb = 0 then .error ()
  else if s.any Val.isInf then .error ()
  else
    let vals := finiteVals s
    if vals = [] then .error ()
    else
      let sorted := List.insertionSort (· ≤ ·) vals
      let mn := sorted.headD 0
      let mx := sorted.getLastD 0
      let edges :=
        if mn = mx then
          linspaceQ (mn - (if mn = 0 then 1 / 1000 else |mn| / 1000))
            (mx + (if mx = 0 then 1 / 1000 else |mx| / 1000)) nb
        else
          adjustHead ((mx - mn) / 1000) (linspaceQ mn mx nb)
      let labels := s.map (fun v => match v with
        | .num x => labelOf edges false x
        | _ => .nanLabel)
      .ok (labels, edges.map Val.num)

/-- Linear-interpolation order statistic of a sorted list at fractional
position pos, the interpolation rule of numpy percentile. -/
def interpAt (xs : List ℚ) (pos : ℚ) : ℚ :=
  let i := (⌊pos⌋).toNat
  match xs[i + 1]? with
  | some b => xs.getD i 0 + (pos - ((⌊pos⌋ : ℤ) : ℚ)) * (b - xs.getD i 0)
  | none => xs.getD i 0

/-- The q + 1 quantile edges of a sorted sample, at probabilities k / q. -/
def qcutEdges (sorted : List ℚ) (q : ℕ) : List ℚ :=
  (List.range (q + 1)).map
    (fun k : ℕ => interpAt sorted (((k : ℚ) * ((sorted.length : ℚ) - 1)) / (q : ℚ)))

/-- Models pd.qcut(series, q, duplicates=drop, retbins=True): quantile edges
with duplicate edges dropped, right-closed bins with the lowest edge
included.  Fails on a non-positive q, an empty or all-NaN series, and when
fewer than two distinct edges remain; non-finite data is treated as failing
(its numpy interpolation is version-dependent, and the callers in app.py
only reach qcut on finite data). -/
def qcutInt (s : List Val) (q : ℕ) : Except Unit (List BinLabel × List Val) :=
  if q = 0 then .error ()
  else if s.any Val.isInf then .error ()
  else
    let vals := finiteVals s
    if vals = [] then .error ()
    else
      let sorted := List.insertionSort (· ≤ ·) vals
      let uedges := (qcutEdges sorted q).dedup
      if uedges.length < 2 then .error ()
      else
        let labels := s.map (fun v => match v with
          | .num x => labelOf uedges true x
          | _ => .nanLabel)
        .ok (labels, uedges.map Val.num)

/-- Embedding of safe_binning (app.py lines 13 to 33): drop NaN, return two
empty sequences on an empty remainder, otherwise try qcut when the distinct
count exceeds the bin count and cut otherwise, retry with cut on failure,
and finally fall back to each value labelling itself (the series paired with
its distinct values). -/
def safe_binning (series : List Val) (bins : ℕ) : List BinLabel × List Val :=
  let series := dropna series
  if series.isEmpty then ([], [])
  else
    match (if nuniqueList series > bins then qcutInt series bins else cutInt series bins) with
    | .ok r => r
    | .error _ =>
      match cutInt series bins with
      | .ok r => r
      | .error _ => (series.map BinLabel.raw, series.dedup)

/-- Returns the first successful attempt, or the fallback when every attempt
fails. -/
def firstSuccess (attempts : List (Except Unit (List BinLabel × List Val)))
    (fallback : List BinLabel × List Val) : List BinLabel × List Val :=
  match attempts with
  | [] => fallback
  | .ok r :: _ => r
  | .error _ :: rest => firstSuccess rest fallback

/-- The binning pipeline phrased as an ordered list of strategies, first
success returned: quantile binning when the distinct count exceeds the bin
count and equal-width binning otherwise, then equal-width binning, then
identity binning, which always succeeds. -/
def binningChain (series : List Val) (bins : ℕ) : List BinLabel × List Val :=
  let s := dropna series
  if s.isEmpty then ([], [])
  else
    firstSuccess
      [(if nuniqueList s > bins then qcutInt s bins else cutInt s bins), cutInt s bins]
      (s.map BinLabel.raw, s.dedup)

/-- Modelled from the spec words of claim C1: on every input the strategies
tried are quantile binning first, then equal-width binning, then identity
binning, the first success being returned. -/
def claimedBinningChain (series : List Val) (bins : ℕ) : List BinLabel × List Val :=
  let s := dropna series
  if s.isEmpty then ([], [])
  else
    firstSuccess [qcutInt s bins, cutInt s bins] (s.map BinLabel.raw, s.dedup)

/-- Models IEEE addition on the value type: NaN propagates and the two
infinities cancel to NaN. -/
def Val.addV : Val → Val → Val
  | .nan, _ => .nan
  | _, .nan => .nan
  | .pinf, .ninf => .nan
  | .ninf, .pinf => .nan
  | .pinf, _ => .pinf
  | _, .pinf => .pinf
  | .ninf, _ => .ninf
  | _, .ninf => .ninf
  | .num a, .num b => .num (a + b)

/-- Sum of a list of values under IEEE-style addition.  Summation order is
immaterial for the finite lists the aggregator feeds it. -/
def sumV : List Val → Val
  | [] => .num 0
  | v :: t => Val.addV v (sumV t)

/-- Models the pandas mean aggregation of a series: NaN on an empty group,
sum divided by length otherwise, with NaN and infinity propagating. -/
def meanV (l : List Val) : Val :=
  if l.isEmpty then .nan
  else
    match sumV l with
    | .num s => .num (s / l.length)
    | v => v

/-- Models groupby on the first component followed by agg mean and count of
the second, one output row per distinct key.  Key order is modelled as the
deduplicated key list; pandas sorts keys by their string form, and no claim
depends on row order. -/
def groupMeanCount (pairs : List (BinLabel × Val)) : List (BinLabel × Val × ℕ) :=
  (pairs.map Prod.fst).dedup.map (fun k =>
    let ys := (pairs.filter (fun p => decide (p.1 = k))).map Prod.snd
    (k, meanV ys, ys.length))

/-- The rows that survive the paired mask of plot_event_rate_bar: infinities
of the feature are first turned into NaN, then a row is kept only when
neither its feature value nor its target value is NaN.  Rows are paired
positionally, mirroring the shared dataframe index. -/
def pairedRows (x y : List Val) : List (Val × Val) :=
  ((x.map replaceInfWithNan).zip y).filter (fun p => !p.1.isNA && !p.2.isNA)

/-- One item rendered to the page. -/
inductive UIItem where
  | warnMsg (m : String) : UIItem
  | errorMsg (m : String) : UIItem
  | writeMsg (m : String) : UIItem
  | tableItem (rows : List (BinLabel × Val × ℕ)) : UIItem
  | chartItem : UIItem
deriving DecidableEq

/-- Embedding of plot_event_rate_bar (app.py lines 58 to 91): mask out
non-finite feature rows and NaN target rows pairwise, warn and stop when
nothing remains, otherwise bin the feature with safe_binning, group the
target by bin label and emit the mean and count per bin as a table, then
build the bar chart.  The chart construction call into plotly is external
and is abstracted by the chartRaises flag; the surrounding try block turns
a raised chart exception into an error message item. -/
def plot_event_rate_bar (x y : List Val) (nBinsX : ℕ) (chartRaises : Bool) :
    List UIItem :=
  let pairs := pairedRows x y
  let xs := pairs.map Prod.fst
  let ys := pairs.map Prod.snd
  if xs.isEmpty then [.warnMsg "No valid data to plot."]
  else
    let xBinned := (safe_binning xs nBinsX).1
    let rows := groupMeanCount (xBinned.zip ys)
    [.writeMsg "Binned Event Rate Table", .tableItem rows] ++
      (if chartRaises then [.errorMsg "Could not generate binning chart"]
       else [.chartItem])

/-- All table rows rendered by a list of items. -/
def extractTable (items : List UIItem) : List (BinLabel × Val × ℕ) :=
  items.foldr (fun it acc => match it with | .tableItem r => r ++ acc | _ => acc) []

/-- Sum of the count column of an event-rate table. -/
def sumCounts (rows : List (BinLabel × Val × ℕ)) : ℕ :=
  (rows.map (fun r => r.2.2)).sum

/-- A dataframe cell: a float value or a string. -/
inductive Cell where
  | numC (v : Val) : Cell
  | strC (s : String) : Cell
deriving DecidableEq

/-- True exactly on the NaN cell, the pandas missing marker. -/
def Cell.isNACell : Cell → Bool
  | .numC .nan => true
  | _ => false

/-- A named column with its pandas dtype class (numeric or not). -/
structure Column where
  isNumericCol : Bool
  values : List Cell
deriving DecidableEq

/-- A dataframe: named columns in order. -/
abbrev DataFrame := List (String × Column)

/-- Column lookup, df[name]. -/
def getCol (df : DataFrame) (name : String) : Option Column :=
  (df.find? (fun p => p.1 == name)).map Prod.snd

/-- The column names of a dataframe. -/
def columnsOf (df : DataFrame) : List String := df.map Prod.fst

/-- Models select_dtypes(include=np.number).columns: the numeric column
names. -/
def numericFeatures (df : DataFrame) : List String :=
  (df.filter (fun p => p.2.isNumericCol)).map Prod.fst

/-- Models Series.nunique: distinct values with NaN excluded. -/
def nuniqueCol (c : Column) : ℕ :=
  ((c.values.filter (fun v => !v.isNACell)).dedup).length

/-- The float view of a column, strings degrading to NaN; the pages only
apply it to numeric columns. -/
def colVals (c : Column) : List Val :=
  c.values.map (fun cell => match cell with | .numC v => v | .strC _ => .nan)

/-- Outcome of running one page handler: a rendered item list, or an
exception escaping the handler uncaught. -/
inductive PageResult where
  | rendered (items : List UIItem) : PageResult
  | raised (msg : String) : PageResult
deriving DecidableEq

/-- True when an exception escaped the handler. -/
def PageResult.isRaised : PageResult → Bool
  | .raised _ => true
  | _ => false

/-- The items a handler rendered (empty when it raised). -/
def PageResult.renderedItems : PageResult → List UIItem
  | .rendered l => l
  | .raised _ => []

/-- Embedding of plot_boxplot (app.py lines 36 to 55): the whole body sits
in a try block, so a raised chart exception becomes an error message and
never escapes.  Chart and stats payloads are abstracted as items; the
external plotly call is abstracted by chartRaises. -/
def plot_boxplot (df : DataFrame) (xFeature yFeature : String)
    (chartRaises : Bool) : PageResult :=
  if chartRaises then .rendered [.errorMsg "Could not plot boxplot"]
  else .rendered [.chartItem, .writeMsg "Summary Stats by Target"]

/-- The bivariate event-rate view: feature and target columns fed to
plot_event_rate_bar; its try block keeps any exception inside. -/
def plot_event_rate_page (df : DataFrame) (xFeature yFeature : String)
    (nBinsX : ℕ) (chartRaises : Bool) : PageResult :=
  match getCol df xFeature, getCol df yFeature with
  | some xc, some yc =>
      .rendered (plot_event_rate_bar (colVals xc) (colVals yc) nBinsX chartRaises)
  | _, _ => .rendered [.errorMsg "Could not generate binning chart"]

/-- Embedding of univariate_analysis_page (app.py lines 102 to 125): branch
on the dtype of the selected feature and build a histogram or a bar chart.
There is no try block in the handler, so a raised chart exception escapes. -/
def univariate_analysis_page (df : DataFrame) (selectedFeature : String)
    (chartRaises : Bool) : PageResult :=
  match getCol df selectedFeature with
  | none => .raised "KeyError"
  | some col =>
    if col.isNumericCol then
      if chartRaises then .raised "histogram construction failed"
      else .rendered [.chartItem, .writeMsg "Summary Statistics"]
    else
      if chartRaises then .raised "bar construction failed"
      else .rendered [.chartItem]

/-- Embedding of correlation_page (app.py lines 127 to 148): warn when the
numeric sub-frame is empty (no numeric columns, or no rows), otherwise
build the heatmap.  No try block: a raised chart exception escapes. -/
def correlation_page (df : DataFrame) (chartRaises : Bool) : PageResult :=
  let numericCols := df.filter (fun p => p.2.isNumericCol)
  if numericCols.isEmpty || numericCols.all (fun p => p.2.values.isEmpty) then
    .rendered [.warnMsg "No numerical features available"]
  else if chartRaises then .raised "heatmap construction failed"
  else .rendered [.chartItem]

/-- Embedding of defaulter_profiling_page (app.py lines 183 to 211): warn
when no numeric feature other than the target exists, otherwise build the
grouped-average bar chart.  No try block: a raised chart exception
escapes. -/
def defaulter_profiling_page (df : DataFrame) (targetFeature : String)
    (selectedFeature : String) (chartRaises : Bool) : PageResult :=
  let featuresToProfile := (numericFeatures df).filter (fun f => f ≠ targetFeature)
  if featuresToProfile.isEmpty then
    .rendered [.warnMsg "No numerical features available for profiling"]
  else if chartRaises then .raised "profiling chart construction failed"
  else .rendered [.chartItem]

/-- The plot-type radio of the bivariates page. -/
inductive PlotMode where
  | box : PlotMode
  | eventRate : PlotMode
deriving DecidableEq

/-- Embedding of bivariates_page (app.py lines 150 to 181): the target is
binary-like when its dtype is numeric and it has at most ten distinct
non-NaN values; only then is a feature selector offered, a numeric selected
feature branching to the boxplot or event-rate plot and any other selection
warning; a non-binary-like target warns and renders no plot.  The selection
is None when the selector has no options. -/
def bivariates_page (df : DataFrame) (targetFeature : String)
    (selected : Option String) (mode : PlotMode) (nBins : ℕ)
    (chartRaises : Bool) : PageResult :=
  match getCol df targetFeature with
  | none => .raised "KeyError"
  | some tcol =>
    if tcol.isNumericCol && decide (nuniqueCol tcol ≤ 10) then
      match selected with
      | some f =>
        if (numericFeatures df).contains f then
          match mode with
          | .box => plot_boxplot df f targetFeature chartRaises
          | .eventRate => plot_event_rate_page df f targetFeature nBins chartRaises
        else .rendered [.warnMsg "Please select a numeric feature"]
      | none => .rendered [.warnMsg "Please select a numeric feature"]
    else .rendered [.warnMsg "Target feature not suitable"]

/-- The fixed target column name of app.py. -/
def TARGET_FEATURE : String := "default_ind"

/-- Outcome of the application shell. -/
inductive MainOutcome where
  | fileReadError (msg : String) : MainOutcome
  | noColumnsWarning : MainOutcome
  | fatalMissingTarget : MainOutcome
  | pageRendered (page : String) : MainOutcome
deriving DecidableEq

/-- True when the shell reached a page view. -/
def MainOutcome.rendersPage : MainOutcome → Bool
  | .pageRendered _ => true
  | _ => false

/-- Embedding of main (app.py lines 220 to 270): a failed file read stops
with an error, a column-less frame stops with a warning, a frame without
the fixed target column stops with a fatal error (st.error plus st.stop),
and otherwise the navigation selection is dispatched to its page.  The page
bodies are modelled separately by the handler functions above; here only
which view is reached matters. -/
def main (readResult : Except String DataFrame) (pageSelection : String) :
    MainOutcome :=
  match readResult with
  | .error e => .fileReadError e
  | .ok df =>
    if (columnsOf df).isEmpty then .noColumnsWarning
    else if !((columnsOf df).contains TARGET_FEATURE) then .fatalMissingTarget
    else .pageRendered pageSelection

/-! Basic lemmas about the embedded primitives. -/

theorem dropna_idem (s : List Val) : dropna (dropna s) = dropna s := by
  unfold dropna
  rw [List.filter_filter]
  simp

/-- C1 (amended): safe_binning never raises and always returns a pair of
label and edge sequences, obtained as the first success of an ordered
strategy chain: the first attempt is quantile binning exactly when the
number of distinct values exceeds the bin count (and equal-width binning
otherwise), the second attempt is equal-width binning, and the final
fallback, which always succeeds, is identity binning. -/
theorem safe_binning_is_fallback_chain (series : List Val) (bins : ℕ) :
    safe_binning series bins = binningChain series bins := by
  unfold safe_binning binningChain
  dsimp only
  cases h1 : (if nuniqueList (dropna series) > bins then qcutInt (dropna series) bins
      else cutInt (dropna series) bins) with
  | ok r => simp [firstSuccess]
  | error e =>
    cases h2 : cutInt (dropna series) bins with
    | ok r => simp [firstSuccess]
    | error e2 => simp [firstSuccess]

unseal Rat.add Rat.mul Rat.inv Rat.sub in
/-- C1 fails as frozen: on the series [1, 2] with bin count 5 the claimed
chain that always tries quantile binning first succeeds at quantile binning,
while safe_binning goes straight to equal-width binning (the distinct count
2 does not exceed 5) and returns a different pair, its first returned edge
being 0.999 instead of 1. -/
theorem safe_binning_ne_claimed_chain :
    safe_binning [Val.num 1, Val.num 2] 5 ≠
      claimedBinningChain [Val.num 1, Val.num 2] 5 ∧
    (safe_binning [Val.num 1, Val.num 2] 5).2.getD 0 Val.nan = Val.num (999 / 1000) ∧
    (claimedBinningChain [Val.num 1, Val.num 2] 5).2.getD 0 Val.nan = Val.num 1 := by
  decide

/-- C3 (amended): safe_binning drops exactly the missing (NaN) entries
before binning; infinities are not dropped by it (its only caller replaces
them with NaN beforehand).  When nothing remains after dropping NaN it
returns two empty sequences. -/
theorem safe_binning_drops_only_nan (series : List Val) (bins : ℕ) :
    safe_binning series bins = safe_binning (dropna series) bins ∧
    (dropna series = [] → safe_binning series bins = ([], [])) := by
  constructor
  · unfold safe_binning
    rw [dropna_idem]
  · intro h
    unfold safe_binning
    rw [h]
    simp

theorem safe_binning_drops_only_nan_witness :
    safe_binning [Val.nan] 5 = ([], []) :=
  (safe_binning_drops_only_nan [Val.nan] 5).2 (by decide)

/-- C3 fails as frozen: a positive-infinity entry is not dropped before
binning.  On the series consisting of one +inf entry, safe_binning keeps
the entry (both binning attempts raise on infinite data and the identity
fallback returns the entry itself), instead of the two empty sequences the
claim requires for a sequence with no finite entries. -/
theorem safe_binning_keeps_infinity :
    safe_binning [Val.pinf] 5 = ([BinLabel.raw Val.pinf], [Val.pinf]) ∧
    safe_binning [Val.pinf] 5 ≠ ([], []) := by
  decide

/-- C8: whenever no rows survive the paired exclusion mask, the event-rate
computation renders exactly the no-data warning: no exception, no table. -/
theorem plot_event_rate_bar_no_rows (x y : List Val) (n : ℕ) (cf : Bool)
    (h : pairedRows x y = []) :
    plot_event_rate_bar x y n cf = [UIItem.warnMsg "No valid data to plot."] := by
  unfold plot_event_rate_bar
  rw [h]
  simp

theorem plot_event_rate_bar_no_rows_witness :
    plot_event_rate_bar [Val.nan, Val.nan, Val.nan]
        [Val.num 0, Val.num 1, Val.num 0] 5 false
      = [UIItem.warnMsg "No valid data to plot."] :=
  plot_event_rate_bar_no_rows _ _ 5 false (by decide)

/-- C9: when the loaded dataframe has columns but none named default_ind,
the shell halts with the fatal missing-target outcome and renders no page,
whatever the navigation selection. -/
theorem main_missing_target_halts (df : DataFrame) (nav : String)
    (hcols : columnsOf df ≠ []) (hmiss : TARGET_FEATURE ∉ columnsOf df) :
    main (Except.ok df) nav = MainOutcome.fatalMissingTarget ∧
    (main (Except.ok df) nav).rendersPage = false := by
  have h1 : (columnsOf df).isEmpty = false := by
    simpa [List.isEmpty_iff] using hcols
  constructor <;> simp [main, h1, hmiss, MainOutcome.rendersPage]

theorem main_missing_target_halts_witness :
    main (Except.ok [("a", (⟨true, []⟩ : Column))]) "Home"
        = MainOutcome.fatalMissingTarget ∧
      (main (Except.ok [("a", (⟨true, []⟩ : Column))]) "Home").rendersPage = false :=
  main_missing_target_halts _ "Home" (by decide) (by decide)

/-- C2 (amended): the two bivariate plot helpers, whose bodies sit in try
blocks, let no chart-construction exception escape, and plot_boxplot
surfaces a raised exception as a rendered error message.  The univariate,
correlation and profiling page handlers contain no such handling (see the
counterexample). -/
theorem plot_helpers_catch_exceptions (df : DataFrame) (xf yf : String)
    (n : ℕ) (cf : Bool) :
    (plot_boxplot df xf yf cf).isRaised = false ∧
    (plot_event_rate_page df xf yf n cf).isRaised = false ∧
    (cf = true →
      UIItem.errorMsg "Could not plot boxplot"
        ∈ (plot_boxplot df xf yf cf).renderedItems) := by
  refine ⟨?_, ?_, ?_⟩
  · cases cf <;> simp [plot_boxplot, PageResult.isRaised]
  · unfold plot_event_rate_page
    cases hx : getCol df xf <;> cases hy : getCol df yf <;>
      simp [PageResult.isRaised]
  · intro h
    subst h
    simp [plot_boxplot, PageResult.renderedItems]

theorem plot_helpers_catch_exceptions_witness :
    UIItem.errorMsg "Could not plot boxplot"
      ∈ (plot_boxplot [] "x" "y" true).renderedItems :=
  (plot_helpers_catch_exceptions [] "x" "y" 2 true).2.2 rfl

/-- C2 fails as frozen: the univariate, correlation and profiling handlers
have no try block, so on a concrete dataframe an exception raised by chart
construction escapes each of them uncaught instead of being surfaced as a
message by the handler. -/
theorem page_handlers_propagate_chart_exceptions :
    (univariate_analysis_page
        [("a", (⟨true, [Cell.numC (Val.num 1)]⟩ : Column)),
         ("default_ind", (⟨true, [Cell.numC (Val.num 0)]⟩ : Column))]
        "a" true).isRaised = true ∧
    (correlation_page [("a", (⟨true, [Cell.numC (Val.num 1)]⟩ : Column))]
        true).isRaised = true ∧
    (defaulter_profiling_page
        [("a", (⟨true, [Cell.numC (Val.num 1)]⟩ : Column)),
         ("default_ind", (⟨true, [Cell.numC (Val.num 0)]⟩ : Column))]
        "default_ind" "a" true).isRaised = true := by
  decide

/-- C10: the bivariates page gates its two plot types on the target column
being numeric with at most ten distinct values: any other target renders
only the unsuitable-target warning; under a suitable target a missing or
non-numeric feature selection renders only the select-a-numeric-feature
warning, and a numeric selection reaches exactly the boxplot or the
event-rate plot according to the chosen mode. -/
theorem bivariates_page_target_gate (df : DataFrame) (target : String)
    (tcol : Column) (ht : getCol df target = some tcol) (sel : Option String)
    (mode : PlotMode) (n : ℕ) (cf : Bool) :
    (¬(tcol.isNumericCol = true ∧ nuniqueCol tcol ≤ 10) →
        bivariates_page df target sel mode n cf =
          PageResult.rendered [UIItem.warnMsg "Target feature not suitable"]) ∧
    ((tcol.isNumericCol = true ∧ nuniqueCol tcol ≤ 10) →
      (sel = none →
        bivariates_page df target sel mode n cf =
          PageResult.rendered [UIItem.warnMsg "Please select a numeric feature"]) ∧
      (∀ f, sel = some f → (numericFeatures df).contains f = false →
        bivariates_page df target sel mode n cf =
          PageResult.rendered [UIItem.warnMsg "Please select a numeric feature"]) ∧
      (∀ f, sel = some f → (numericFeatures df).contains f = true →
        (mode = PlotMode.box →
          bivariates_page df target sel mode n cf = plot_boxplot df f target cf) ∧
        (mode = PlotMode.eventRate →
          bivariates_page df target sel mode n cf =
            plot_event_rate_page df f target n cf))) := by
  constructor
  · intro hno
    have hb : (tcol.isNumericCol && decide (nuniqueCol tcol ≤ 10)) = false := by
      cases hnum : tcol.isNumericCol <;> by_cases h10 : nuniqueCol tcol ≤ 10 <;>
        simp_all
    simp [bivariates_page, ht, hb]
  · rintro ⟨hnum, h10⟩
    have hb : (tcol.isNumericCol && decide (nuniqueCol tcol ≤ 10)) = true := by
      simp [hnum, h10]
    refine ⟨?_, ?_, ?_⟩
    · intro hs
      subst hs
      simp [bivariates_page, ht, hb]
    · intro f hs hf
      subst hs
      have hf2 : f ∉ numericFeatures df := by simpa using hf
      simp [bivariates_page, ht, hb, hf2]
    · intro f hs hf
      subst hs
      have hf2 : f ∈ numericFeatures df := by simpa using hf
      constructor <;> intro hm <;> subst hm <;> simp [bivariates_page, ht, hb, hf2]

theorem bivariates_page_target_gate_witness :
    bivariates_page [("t", (⟨false, []⟩ : Column))] "t" none PlotMode.box 5 false =
      PageResult.rendered [UIItem.warnMsg "Target feature not suitable"] :=
  (bivariates_page_target_gate [("t", (⟨false, []⟩ : Column))] "t"
      (⟨false, []⟩ : Column) (by decide) none PlotMode.box 5 false).1 (by decide)

unseal Rat.add Rat.mul Rat.inv Rat.sub in
/-- C6: on the scenario feature 1..10, target five zeros then five ones,
bin count 2, the event-rate computation renders exactly two bins, the
buckets 1 to 5.5 and 5.5 to 10, each counting 5 rows, with event rates 0
and 1. -/
theorem event_rate_scenario_two_bins :
    extractTable (plot_event_rate_bar
        [Val.num 1, Val.num 2, Val.num 3, Val.num 4, Val.num 5,
         Val.num 6, Val.num 7, Val.num 8, Val.num 9, Val.num 10]
        [Val.num 0, Val.num 0, Val.num 0, Val.num 0, Val.num 0,
         Val.num 1, Val.num 1, Val.num 1, Val.num 1, Val.num 1] 2 false) =
      [(BinLabel.interval 1 (11 / 2), Val.num 0, 5),
       (BinLabel.interval (11 / 2) 10, Val.num 1, 5)] := by
  decide

theorem cutInt_ok_labels {s : List Val} {nb : ℕ} {r : List BinLabel × List Val}
    (h : cutInt s nb = Except.ok r) : r.1.length = s.length := by
  unfold cutInt at h
  dsimp only at h
  split at h
  · simp at h
  · split at h
    · simp at h
    · split at h
      · simp at h
      · injection h with h
        subst h
        simp

theorem qcutInt_ok_labels {s : List Val} {q : ℕ} {r : List BinLabel × List Val}
    (h : qcutInt s q = Except.ok r) : r.1.length = s.length := by
  unfold qcutInt at h
  dsimp only at h
  split at h
  · simp at h
  · split at h
    · simp at h
    · split at h
      · simp at h
      · split at h
        · simp at h
        · injection h with h
          subst h
          simp

theorem safe_binning_labels_length (s : List Val) (n : ℕ) :
    ((safe_binning s n).1).length = (dropna s).length := by
  unfold safe_binning
  dsimp only
  by_cases he : (dropna s).isEmpty = true
  · rw [if_pos he]
    rw [List.isEmpty_iff] at he
    simp [he]
  · rw [if_neg he]
    cases h1 : (if nuniqueList (dropna s) > n then qcutInt (dropna s) n
        else cutInt (dropna s) n) with
    | ok r =>
      have hr : r.1.length = (dropna s).length := by
        split at h1
        · exact qcutInt_ok_labels h1
        · exact cutInt_ok_labels h1
      simpa using hr
    | error e =>
      cases h2 : cutInt (dropna s) n with
      | ok r => simpa using cutInt_ok_labels h2
      | error e2 => simp

theorem sumCounts_groupMeanCount (ps : List (BinLabel × Val)) :
    sumCounts (groupMeanCount ps) = ps.length := by
  unfold sumCounts groupMeanCount
  dsimp only
  rw [List.map_map]
  have h1 : ((fun r : BinLabel × Val × ℕ => r.2.2) ∘ fun k =>
      (k, meanV ((ps.filter (fun p => decide (p.1 = k))).map Prod.snd),
        ((ps.filter (fun p => decide (p.1 = k))).map Prod.snd).length)) =
      fun k => (ps.map Prod.fst).count k := by
    funext k
    simp only [Function.comp]
    rw [List.length_map, ← List.countP_eq_length_filter]
    rw [List.count_eq_countP, List.countP_map]
    rfl
  rw [h1]
  have h2 := List.sum_map_count_dedup_eq_length (ps.map Prod.fst)
  simpa using h2

theorem extractTable_event_items (m e : String)
    (rows : List (BinLabel × Val × ℕ)) (cf : Bool) :
    extractTable ([UIItem.writeMsg m, UIItem.tableItem rows] ++
      (if cf then [UIItem.errorMsg e] else [UIItem.chartItem])) = rows := by
  cases cf <;> simp [extractTable]

/-- C4: the event-rate computation removes rows pairwise, a row with a
non-finite feature value or missing target value being dropped from both
sequences at once by the shared mask; the counts of the rendered event-rate
table always add up to the number of retained row pairs (both being zero
when nothing survives, in which case no table is rendered). -/
theorem event_rate_counts_sum (x y : List Val) (n : ℕ) (cf : Bool)
    (h : x.length = y.length) :
    sumCounts (extractTable (plot_event_rate_bar x y n cf)) =
      (pairedRows x y).length := by
  unfold plot_event_rate_bar
  dsimp only
  by_cases he : ((pairedRows x y).map Prod.fst).isEmpty = true
  · rw [if_pos he]
    rw [List.isEmpty_iff, List.map_eq_nil_iff] at he
    simp [extractTable, he, sumCounts]
  · rw [if_neg he]
    rw [extractTable_event_items]
    rw [sumCounts_groupMeanCount]
    have hx : ∀ v ∈ (pairedRows x y).map Prod.fst, v.isNA = false := by
      intro v hv
      rcases List.mem_map.mp hv with ⟨p, hp, rfl⟩
      have hpred := (List.mem_filter.mp hp).2
      simp at hpred
      exact hpred.1
    have hdrop : dropna ((pairedRows x y).map Prod.fst) =
        (pairedRows x y).map Prod.fst := by
      unfold dropna
      rw [List.filter_eq_self]
      intro v hv
      simp [hx v hv]
    have hlen := safe_binning_labels_length ((pairedRows x y).map Prod.fst) n
    rw [hdrop] at hlen
    rw [List.length_zip, hlen]
    simp

unseal Rat.add Rat.mul Rat.inv Rat.sub in
theorem event_rate_counts_sum_witness :
    sumCounts (extractTable (plot_event_rate_bar [Val.num 1, Val.num 2, Val.nan]
        [Val.num 0, Val.nan, Val.num 1] 3 false)) =
      (pairedRows [Val.num 1, Val.num 2, Val.nan]
        [Val.num 0, Val.nan, Val.num 1]).length :=
  event_rate_counts_sum _ _ 3 false (by decide)

theorem sumV_binary (l : List Val)
    (hb : ∀ v ∈ l, v = Val.num 0 ∨ v = Val.num 1) :
    ∃ s : ℚ, sumV l = Val.num s ∧ 0 ≤ s ∧ s ≤ l.length := by
  induction l with
  | nil => exact ⟨0, rfl, le_refl 0, by simp⟩
  | cons a t ih =>
    rcases ih (fun v hv => hb v (List.mem_cons_of_mem a hv)) with ⟨s, hs, h0, h1⟩
    have hcast : ((a :: t).length : ℚ) = (t.length : ℚ) + 1 := by
      push_cast [List.length_cons]
      ring
    rcases hb a (List.mem_cons_self a t) with ha | ha
    · subst ha
      refine ⟨0 + s, ?_, by linarith, ?_⟩
      · show Val.addV (Val.num 0) (sumV t) = Val.num (0 + s)
        rw [hs]
        rfl
      · rw [hcast]
        linarith
    · subst ha
      refine ⟨1 + s, ?_, by linarith, ?_⟩
      · show Val.addV (Val.num 1) (sumV t) = Val.num (1 + s)
        rw [hs]
        rfl
      · rw [hcast]
        linarith

theorem meanV_binary (l : List Val) (hne : l ≠ [])
    (hb : ∀ v ∈ l, v = Val.num 0 ∨ v = Val.num 1) :
    ∃ q : ℚ, meanV l = Val.num q ∧ 0 ≤ q ∧ q ≤ 1 := by
  rcases sumV_binary l hb with ⟨s, hs, h0, h1⟩
  have hl : (0 : ℚ) < l.length := by
    have hp : 0 < l.length := List.length_pos.mpr hne
    exact_mod_cast hp
  refine ⟨s / l.length, ?_, ?_, ?_⟩
  · unfold meanV
    rw [if_neg (by simpa [List.isEmpty_iff] using hne), hs]
  · exact div_nonneg h0 (le_of_lt hl)
  · exact (div_le_one hl).mpr h1

theorem groupMeanCount_rates (zs : List (BinLabel × Val))
    (hb : ∀ p ∈ zs, p.2 = Val.num 0 ∨ p.2 = Val.num 1) :
    ∀ row ∈ groupMeanCount zs, ∃ q : ℚ, row.2.1 = Val.num q ∧ 0 ≤ q ∧ q ≤ 1 := by
  intro row hrow
  unfold groupMeanCount at hrow
  dsimp only at hrow
  rcases List.mem_map.mp hrow with ⟨k, hk, hEq⟩
  subst hEq
  have hkmem : k ∈ zs.map Prod.fst := List.mem_dedup.mp hk
  rcases List.mem_map.mp hkmem with ⟨p, hp, hpk⟩
  have hmemf : p ∈ zs.filter (fun p => decide (p.1 = k)) :=
    List.mem_filter.mpr ⟨hp, by simp [hpk]⟩
  have hne : (zs.filter (fun p => decide (p.1 = k))).map Prod.snd ≠ [] := by
    intro hc
    have hm := List.mem_map_of_mem Prod.snd hmemf
    rw [hc] at hm
    exact absurd hm (List.not_mem_nil _)
  have hvals : ∀ v ∈ (zs.filter (fun p => decide (p.1 = k))).map Prod.snd,
      v = Val.num 0 ∨ v = Val.num 1 := by
    intro v hv
    rcases List.mem_map.mp hv with ⟨p2, hp2, rfl⟩
    exact hb p2 (List.mem_filter.mp hp2).1
  exact meanV_binary _ hne hvals

/-- C7: whenever every target value is 0 or 1, every event rate in the
rendered event-rate table lies in the closed unit interval. -/
theorem event_rate_rates_in_unit (x y : List Val) (n : ℕ) (cf : Bool)
    (hb : ∀ v ∈ y, v = Val.num 0 ∨ v = Val.num 1) :
    ∀ row ∈ extractTable (plot_event_rate_bar x y n cf),
      ∃ q : ℚ, row.2.1 = Val.num q ∧ 0 ≤ q ∧ q ≤ 1 := by
  intro row hrow
  unfold plot_event_rate_bar at hrow
  dsimp only at hrow
  by_cases he : ((pairedRows x y).map Prod.fst).isEmpty = true
  · rw [if_pos he] at hrow
    simp [extractTable] at hrow
  · rw [if_neg he] at hrow
    rw [extractTable_event_items] at hrow
    refine groupMeanCount_rates _ ?_ row hrow
    intro p hp
    have hsnd := (List.of_mem_zip hp).2
    rcases List.mem_map.mp hsnd with ⟨pr, hpr, hprEq⟩
    have hin : pr ∈ (x.map replaceInfWithNan).zip y := (List.mem_filter.mp hpr).1
    have hy : pr.2 ∈ y := (List.of_mem_zip hin).2
    rw [← hprEq]
    exact hb pr.2 hy

unseal Rat.add Rat.mul Rat.inv Rat.sub in
theorem event_rate_rates_in_unit_witness :
    ∃ q : ℚ, ((extractTable (plot_event_rate_bar [Val.num 1, Val.num 2]
        [Val.num 0, Val.num 1] 2 false)).getD 0
        (BinLabel.nanLabel, Val.nan, 0)).2.1 = Val.num q ∧ 0 ≤ q ∧ q ≤ 1 :=
  event_rate_rates_in_unit [Val.num 1, Val.num 2] [Val.num 0, Val.num 1] 2 false
    (by decide) _ (by decide)

/-! Lemmas on sorted rational lists, supporting the quantile-binning
analysis. -/

theorem getD_eq_getElem_of_lt {xs : List ℚ} {i : ℕ} (h : i < xs.length) :
    xs.getD i 0 = xs[i] := by
  rw [List.getD_eq_getElem?_getD, List.getElem?_eq_getElem h]
  rfl

theorem sorted_getD_mono {xs : List ℚ} (hs : xs.Sorted (· ≤ ·)) {i j : ℕ}
    (hij : i ≤ j) (hj : j < xs.length) : xs.getD i 0 ≤ xs.getD j 0 := by
  have hi : i < xs.length := lt_of_le_of_lt hij hj
  rw [getD_eq_getElem_of_lt hi, getD_eq_getElem_of_lt hj]
  rcases eq_or_lt_of_le hij with rfl | hlt
  · exact le_refl _
  · exact List.pairwise_iff_getElem.mp hs i j hi hj hlt

theorem sorted_getD_strict {xs : List ℚ} (hs : xs.Sorted (· < ·)) {i j : ℕ}
    (hij : i < j) (hj : j < xs.length) : xs.getD i 0 < xs.getD j 0 := by
  have hi : i < xs.length := lt_trans hij hj
  rw [getD_eq_getElem_of_lt hi, getD_eq_getElem_of_lt hj]
  exact List.pairwise_iff_getElem.mp hs i j hi hj hij

theorem sorted_getD_head_le {xs : List ℚ} (hs : xs.Sorted (· ≤ ·)) {q : ℚ}
    (hq : q ∈ xs) : xs.getD 0 0 ≤ q := by
  rcases List.mem_iff_getElem.mp hq with ⟨i, hi, rfl⟩
  rw [← getD_eq_getElem_of_lt hi]
  exact sorted_getD_mono hs (Nat.zero_le i) hi

theorem sorted_getD_le_last {xs : List ℚ} (hs : xs.Sorted (· ≤ ·)) {q : ℚ}
    (hq : q ∈ xs) : q ≤ xs.getD (xs.length - 1) 0 := by
  rcases List.mem_iff_getElem.mp hq with ⟨i, hi, rfl⟩
  rw [← getD_eq_getElem_of_lt hi]
  exact sorted_getD_mono hs (by omega) (by omega)

theorem sorted_lt_of_le_nodup {xs : List ℚ} (hs : xs.Sorted (· ≤ ·))
    (hn : xs.Nodup) : xs.Sorted (· < ·) := by
  rw [List.Sorted, List.pairwise_iff_getElem]
  intro i j hi hj hij
  exact lt_of_le_of_ne (List.pairwise_iff_getElem.mp hs i j hi hj hij)
    (List.pairwise_iff_getElem.mp hn i j hi hj hij)

theorem two_le_length_of_mem_ne {xs : List ℚ} {a b : ℚ} (ha : a ∈ xs)
    (hb : b ∈ xs) (hab : a ≠ b) : 2 ≤ xs.length := by
  cases xs with
  | nil => cases ha
  | cons c t =>
    cases t with
    | nil =>
      have h1 : a = c := by simpa using ha
      have h2 : b = c := by simpa using hb
      exact absurd (h1.trans h2.symm) hab
    | cons d t2 => simp only [List.length_cons]; omega

theorem getD_mem {l : List ℚ} {i : ℕ} (h : i < l.length) : l.getD i 0 ∈ l := by
  rw [getD_eq_getElem_of_lt h]
  exact List.getElem_mem h

theorem dedup_sorted_lt {l : List ℚ} (hs : l.Sorted (· ≤ ·)) :
    l.dedup.Sorted (· < ·) :=
  sorted_lt_of_le_nodup (List.Pairwise.sublist (List.dedup_sublist l) hs)
    (List.nodup_dedup l)

/-! Lemmas on the linear-interpolation order statistic. -/

theorem interpAt_ge {xs : List ℚ} (hs : xs.Sorted (· ≤ ·)) {pos : ℚ}
    (hpos : 0 ≤ pos) : xs.getD ((⌊pos⌋).toNat) 0 ≤ interpAt xs pos := by
  unfold interpAt
  dsimp only
  cases hb : xs[(⌊pos⌋).toNat + 1]? with
  | none => exact le_refl _
  | some b =>
    dsimp only
    rcases List.getElem?_eq_some_iff.mp hb with ⟨hlt, hbe⟩
    have hab : xs.getD ((⌊pos⌋).toNat) 0 ≤ b := by
      rw [← hbe, ← getD_eq_getElem_of_lt hlt]
      exact sorted_getD_mono hs (Nat.le_succ _) hlt
    have hfrac : 0 ≤ pos - ((⌊pos⌋ : ℤ) : ℚ) := by
      have h1 : ((⌊pos⌋ : ℤ) : ℚ) ≤ pos := Int.floor_le pos
      linarith
    have hprod := mul_nonneg hfrac (sub_nonneg.mpr hab)
    linarith

theorem interpAt_le_some {xs : List ℚ} (hs : xs.Sorted (· ≤ ·)) {pos b : ℚ}
    (hb : xs[(⌊pos⌋).toNat + 1]? = some b) : interpAt xs pos ≤ b := by
  unfold interpAt
  dsimp only
  rw [hb]
  dsimp only
  rcases List.getElem?_eq_some_iff.mp hb with ⟨hlt, hbe⟩
  have hab : xs.getD ((⌊pos⌋).toNat) 0 ≤ b := by
    rw [← hbe, ← getD_eq_getElem_of_lt hlt]
    exact sorted_getD_mono hs (Nat.le_succ _) hlt
  have hfrac : pos - ((⌊pos⌋ : ℤ) : ℚ) ≤ 1 := by
    have h1 : pos < ((⌊pos⌋ : ℤ) : ℚ) + 1 := Int.lt_floor_add_one pos
    linarith
  have hprod := mul_le_of_le_one_left (sub_nonneg.mpr hab) hfrac
  linarith

theorem interpAt_mono {xs : List ℚ} (hs : xs.Sorted (· ≤ ·)) {a b : ℚ}
    (ha : 0 ≤ a) (hab : a ≤ b) (hb : b ≤ (xs.length : ℚ) - 1) :
    interpAt xs a ≤ interpAt xs b := by
  have hb0 : 0 ≤ b := le_trans ha hab
  have hfa0 : 0 ≤ ⌊a⌋ := Int.floor_nonneg.mpr ha
  have hfb0 : 0 ≤ ⌊b⌋ := Int.floor_nonneg.mpr hb0
  have hflele : ⌊a⌋ ≤ ⌊b⌋ := Int.floor_mono hab
  by_cases heq : ⌊a⌋ = ⌊b⌋
  · unfold interpAt
    dsimp only
    rw [heq]
    cases hc : xs[(⌊b⌋).toNat + 1]? with
    | none => exact le_refl _
    | some c =>
      dsimp only
      rcases List.getElem?_eq_some_iff.mp hc with ⟨hlt, hce⟩
      have hAc : xs.getD ((⌊b⌋).toNat) 0 ≤ c := by
        rw [← hce, ← getD_eq_getElem_of_lt hlt]
        exact sorted_getD_mono hs (Nat.le_succ _) hlt
      have hfle : a - ((⌊b⌋ : ℤ) : ℚ) ≤ b - ((⌊b⌋ : ℤ) : ℚ) := by linarith
      have hprod := mul_le_mul_of_nonneg_right hfle (sub_nonneg.mpr hAc)
      linarith
  · have hjlt : (⌊b⌋).toNat < xs.length := by
      have h1 : (xs.length : ℚ) - 1 = (((xs.length : ℤ) - 1 : ℤ) : ℚ) := by
        push_cast
        ring
      have h2 : ⌊b⌋ ≤ (xs.length : ℤ) - 1 := by
        have h3 := Int.floor_mono hb
        rw [h1, Int.floor_intCast] at h3
        exact h3
      omega
    have hi1 : (⌊a⌋).toNat + 1 < xs.length := by omega
    have hsome : xs[(⌊a⌋).toNat + 1]? = some (xs.getD ((⌊a⌋).toNat + 1) 0) := by
      rw [getD_eq_getElem_of_lt hi1]
      exact List.getElem?_eq_getElem hi1
    have h1 := interpAt_le_some hs hsome
    have h2 : xs.getD ((⌊a⌋).toNat + 1) 0 ≤ xs.getD ((⌊b⌋).toNat) 0 :=
      sorted_getD_mono hs (by omega) hjlt
    have h3 := interpAt_ge hs hb0
    linarith

theorem interpAt_zero (xs : List ℚ) : interpAt xs 0 = xs.getD 0 0 := by
  unfold interpAt
  dsimp only
  have h0 : (⌊(0 : ℚ)⌋).toNat = 0 := by simp
  rw [h0]
  cases hb : xs[0 + 1]? with
  | none => rfl
  | some b => simp

theorem interpAt_last {xs : List ℚ} (hne : xs ≠ []) :
    interpAt xs ((xs.length : ℚ) - 1) = xs.getD (xs.length - 1) 0 := by
  have hlen : 1 ≤ xs.length := List.length_pos.mpr hne
  have h1 : (xs.length : ℚ) - 1 = (((xs.length : ℤ) - 1 : ℤ) : ℚ) := by
    push_cast
    ring
  have hfl : ⌊(xs.length : ℚ) - 1⌋ = (xs.length : ℤ) - 1 := by
    rw [h1, Int.floor_intCast]
  have htn : (⌊(xs.length : ℚ) - 1⌋).toNat = xs.length - 1 := by
    rw [hfl]
    omega
  unfold interpAt
  dsimp only
  rw [htn]
  have hnone : xs[xs.length - 1 + 1]? = none :=
    List.getElem?_eq_none (by omega)
  rw [hnone]

/-! Lemmas on the quantile edge list. -/

theorem posK_nonneg {m q k : ℕ} (hm : 1 ≤ m) :
    (0 : ℚ) ≤ ((k : ℚ) * ((m : ℚ) - 1)) / (q : ℚ) := by
  have hm1 : (0 : ℚ) ≤ (m : ℚ) - 1 := by
    have h1 : (1 : ℚ) ≤ (m : ℚ) := by exact_mod_cast hm
    linarith
  have hk0 : (0 : ℚ) ≤ (k : ℚ) := by positivity
  have hq0 : (0 : ℚ) ≤ (q : ℚ) := by positivity
  exact div_nonneg (mul_nonneg hk0 hm1) hq0

theorem posK_le {m q k : ℕ} (hm : 1 ≤ m) (hq : 1 ≤ q) (hk : k ≤ q) :
    ((k : ℚ) * ((m : ℚ) - 1)) / (q : ℚ) ≤ (m : ℚ) - 1 := by
  have hm1 : (0 : ℚ) ≤ (m : ℚ) - 1 := by
    have h1 : (1 : ℚ) ≤ (m : ℚ) := by exact_mod_cast hm
    linarith
  have hq0 : (0 : ℚ) < (q : ℚ) := by exact_mod_cast hq
  have hkq : (k : ℚ) ≤ (q : ℚ) := by exact_mod_cast hk
  rw [div_le_iff hq0]
  nlinarith

theorem posK_mono {m q : ℕ} (hm : 1 ≤ m) {k k2 : ℕ} (hk : k ≤ k2) :
    ((k : ℚ) * ((m : ℚ) - 1)) / (q : ℚ) ≤ ((k2 : ℚ) * ((m : ℚ) - 1)) / (q : ℚ) := by
  have hm1 : (0 : ℚ) ≤ (m : ℚ) - 1 := by
    have h1 : (1 : ℚ) ≤ (m : ℚ) := by exact_mod_cast hm
    linarith
  have hkk : (k : ℚ) ≤ (k2 : ℚ) := by exact_mod_cast hk
  rcases eq_or_lt_of_le (show (0 : ℚ) ≤ (q : ℚ) by positivity) with hq0 | hq0
  · rw [← hq0, div_zero, div_zero]
  · exact (div_le_div_right hq0).mpr (mul_le_mul_of_nonneg_right hkk hm1)

theorem qcutEdges_sorted {sorted : List ℚ} (hs : sorted.Sorted (· ≤ ·)) {q : ℕ}
    (hq : 1 ≤ q) (hm : 1 ≤ sorted.length) :
    (qcutEdges sorted q).Sorted (· ≤ ·) := by
  unfold qcutEdges
  rw [List.Sorted, List.pairwise_iff_getElem]
  intro i j hi hj hij
  rw [List.length_map, List.length_range] at hi hj
  simp only [List.getElem_map, List.getElem_range]
  apply interpAt_mono hs (posK_nonneg hm) (posK_mono hm (le_of_lt hij))
    (posK_le hm hq (by omega))

theorem qcutEdges_mem_min {sorted : List ℚ} (q : ℕ) :
    sorted.getD 0 0 ∈ qcutEdges sorted q := by
  unfold qcutEdges
  have h0 : sorted.getD 0 0 =
      interpAt sorted ((((0 : ℕ) : ℚ) * ((sorted.length : ℚ) - 1)) / (q : ℚ)) := by
    norm_num [interpAt_zero]
  rw [h0]
  exact List.mem_map_of_mem _ (List.mem_range.mpr (by omega))

theorem qcutEdges_mem_max {sorted : List ℚ} (hne : sorted ≠ []) {q : ℕ}
    (hq : 1 ≤ q) :
    sorted.getD (sorted.length - 1) 0 ∈ qcutEdges sorted q := by
  unfold qcutEdges
  have hq0 : ((q : ℕ) : ℚ) ≠ 0 := by
    have : (0 : ℚ) < (q : ℚ) := by exact_mod_cast hq
    linarith
  have h0 : sorted.getD (sorted.length - 1) 0 =
      interpAt sorted ((((q : ℕ) : ℚ) * ((sorted.length : ℚ) - 1)) / (q : ℚ)) := by
    rw [mul_comm, mul_div_assoc, div_self hq0, mul_one, interpAt_last hne]
  rw [h0]
  exact List.mem_map_of_mem _ (List.mem_range.mpr (by omega))

theorem qcutEdges_bounds {sorted : List ℚ} (hs : sorted.Sorted (· ≤ ·)) {q : ℕ}
    (hq : 1 ≤ q) (hm : 1 ≤ sorted.length) :
    ∀ e ∈ qcutEdges sorted q,
      sorted.getD 0 0 ≤ e ∧ e ≤ sorted.getD (sorted.length - 1) 0 := by
  intro e he
  unfold qcutEdges at he
  rcases List.mem_map.mp he with ⟨k, hk, rfl⟩
  have hkq : k < q + 1 := List.mem_range.mp hk
  constructor
  · have h0 : sorted.getD 0 0 =
        interpAt sorted ((((0 : ℕ) : ℚ) * ((sorted.length : ℚ) - 1)) / (q : ℚ)) := by
      norm_num [interpAt_zero]
    rw [h0]
    exact interpAt_mono hs (posK_nonneg hm) (posK_mono hm (Nat.zero_le k))
      (posK_le hm hq (by omega))
  · have hne : sorted ≠ [] := by
      intro hc
      rw [hc] at hm
      simp at hm
    have h0 : sorted.getD (sorted.length - 1) 0 =
        interpAt sorted ((((q : ℕ) : ℚ) * ((sorted.length : ℚ) - 1)) / (q : ℚ)) := by
      have hq0 : ((q : ℕ) : ℚ) ≠ 0 := by
        have : (0 : ℚ) < (q : ℚ) := by exact_mod_cast hq
        linarith
      rw [mul_comm, mul_div_assoc, div_self hq0, mul_one, interpAt_last hne]
    rw [h0]
    exact interpAt_mono hs (posK_nonneg hm) (posK_mono hm (by omega))
      (posK_le hm hq (le_refl q))

/-! Lemmas on the searchsorted bucket lookup. -/

theorem searchsortedLeft_le_length (edges : List ℚ) (v : ℚ) :
    searchsortedLeft edges v ≤ edges.length := by
  induction edges with
  | nil => simp [searchsortedLeft]
  | cons e t ih =>
    unfold searchsortedLeft
    split
    · simp
    · simpa using ih

theorem searchsortedLeft_lower (edges : List ℚ) (v : ℚ) (k : ℕ)
    (hk : k < searchsortedLeft edges v) : edges.getD k 0 < v := by
  induction edges generalizing k with
  | nil => simp [searchsortedLeft] at hk
  | cons e t ih =>
    unfold searchsortedLeft at hk
    split at hk
    · omega
    · rename_i hnotle
      cases k with
      | zero => simpa using lt_of_not_ge hnotle
      | succ k2 => simpa using ih k2 (by omega)

theorem searchsortedLeft_upper (edges : List ℚ) (v : ℚ)
    (h : searchsortedLeft edges v < edges.length) :
    v ≤ edges.getD (searchsortedLeft edges v) 0 := by
  induction edges with
  | nil => simp at h
  | cons e t ih =>
    by_cases hc : v ≤ e
    · simpa [searchsortedLeft, hc] using hc
    · have hss : searchsortedLeft (e :: t) v = searchsortedLeft t v + 1 := by
        simp [searchsortedLeft, hc]
      rw [hss] at h
      simp only [List.length_cons] at h
      have h2 : searchsortedLeft t v < t.length := by omega
      have := ih h2
      rw [hss]
      simpa using this

theorem searchsortedLeft_lt_length {edges : List ℚ} {v w : ℚ} (hw : w ∈ edges)
    (hvw : v ≤ w) : searchsortedLeft edges v < edges.length := by
  by_contra hge
  have hle := searchsortedLeft_le_length edges v
  rcases List.mem_iff_getElem.mp hw with ⟨k, hk, rfl⟩
  have hlow := searchsortedLeft_lower edges v k (by omega)
  rw [getD_eq_getElem_of_lt hk] at hlow
  linarith

/-- Membership of a value in bucket j of the edge list, the first bucket
also containing its left edge (the include-lowest convention of qcut). -/
def memBucket (es : List ℚ) (j : ℕ) (v : ℚ) : Prop :=
  (es.getD j 0 < v ∨ (j = 0 ∧ v = es.getD 0 0)) ∧ v ≤ es.getD (j + 1) 0

theorem bucketIdx_covers {es : List ℚ} (hlt : es.Sorted (· < ·))
    (h2 : 2 ≤ es.length) {v : ℚ} (hlo : es.getD 0 0 ≤ v)
    (hhi : v ≤ es.getD (es.length - 1) 0) :
    ∃ j, j + 1 < es.length ∧ bucketIdx es true v = some j ∧ memBucket es j v := by
  by_cases hv0 : v = es.getD 0 0
  · refine ⟨0, by omega, ?_, ?_, ?_⟩
    · have hlen1 : ¬ (1 = es.length) := by omega
      simp [bucketIdx, hv0, hlen1]
    · right
      exact ⟨rfl, hv0⟩
    · rw [hv0]
      exact le_of_lt (sorted_getD_strict hlt (by omega) (by omega))
  · have hlo2 : es.getD 0 0 < v := lt_of_le_of_ne hlo (Ne.symm hv0)
    have hlast : es.getD (es.length - 1) 0 ∈ es := getD_mem (by omega)
    have hilt : searchsortedLeft es v < es.length :=
      searchsortedLeft_lt_length hlast hhi
    have hipos : 1 ≤ searchsortedLeft es v := by
      by_contra h0
      have h00 : searchsortedLeft es v = 0 := by omega
      have hup := searchsortedLeft_upper es v hilt
      rw [h00] at hup
      linarith
    refine ⟨searchsortedLeft es v - 1, by omega, ?_, ?_, ?_⟩
    · have hne0 : ¬ (searchsortedLeft es v = 0) := by omega
      have hnelen : ¬ (searchsortedLeft es v = es.length) := by omega
      have hv0n : ¬ (v = es[0]?.getD 0) := by simpa using hv0
      simp [bucketIdx, hv0n, hne0, hnelen]
    · left
      exact searchsortedLeft_lower es v (searchsortedLeft es v - 1) (by omega)
    · have hplus : searchsortedLeft es v - 1 + 1 = searchsortedLeft es v := by
        omega
      rw [hplus]
      exact searchsortedLeft_upper es v hilt

theorem memBucket_disjoint {es : List ℚ} (hlt : es.Sorted (· < ·)) {i j : ℕ}
    {v : ℚ} (hij : i < j) (hj : j + 1 < es.length) (hi : memBucket es i v)
    (hjB : memBucket es j v) : False := by
  have hvj : es.getD j 0 < v := by
    rcases hjB.1 with h | ⟨hj0, _⟩
    · exact h
    · omega
  have h1 : v ≤ es.getD (i + 1) 0 := hi.2
  have h2 : es.getD (i + 1) 0 ≤ es.getD j 0 := by
    rcases eq_or_lt_of_le (show i + 1 ≤ j by omega) with he | hl
    · rw [he]
    · exact le_of_lt (sorted_getD_strict hlt hl (by omega))
  linarith

/-! Lemmas tying the value lists to their finite contents. -/

theorem finiteVals_mem {s : List Val} {q : ℚ} :
    q ∈ finiteVals s ↔ Val.num q ∈ s := by
  unfold finiteVals
  rw [List.mem_filterMap]
  constructor
  · rintro ⟨v, hv, hfv⟩
    cases v <;> simp_all
  · intro h
    exact ⟨Val.num q, h, rfl⟩

theorem dropna_eq_self_of_finite {s : List Val}
    (hfin : ∀ v ∈ s, v.isFiniteV = true) : dropna s = s := by
  unfold dropna
  rw [List.filter_eq_self]
  intro v hv
  have := hfin v hv
  cases v <;> simp_all [Val.isNA, Val.isFiniteV]

theorem any_isInf_false_of_finite {s : List Val}
    (hfin : ∀ v ∈ s, v.isFiniteV = true) : s.any Val.isInf = false := by
  rw [List.any_eq_false]
  intro v hv
  have := hfin v hv
  cases v <;> simp_all [Val.isInf, Val.isFiniteV]

theorem finiteVals_ne_nil {s : List Val}
    (hfin : ∀ v ∈ s, v.isFiniteV = true) (hne : s ≠ []) : finiteVals s ≠ [] := by
  cases s with
  | nil => exact absurd rfl hne
  | cons v t =>
    have hv := hfin v (List.mem_cons_self v t)
    cases v with
    | num q =>
      intro hc
      have hm : q ∈ finiteVals (Val.num q :: t) :=
        finiteVals_mem.mpr (List.mem_cons_self _ _)
      rw [hc] at hm
      exact absurd hm (List.not_mem_nil q)
    | nan => simp [Val.isFiniteV] at hv
    | pinf => simp [Val.isFiniteV] at hv
    | ninf => simp [Val.isFiniteV] at hv

theorem exists_two_distinct_of_nunique {s : List Val} (h : 2 ≤ nuniqueList s) :
    ∃ a b, a ∈ s ∧ b ∈ s ∧ a ≠ b := by
  unfold nuniqueList at h
  cases hd : s.dedup with
  | nil =>
    rw [hd] at h
    simp at h
  | cons a t =>
    cases t with
    | nil =>
      rw [hd] at h
      simp at h
    | cons b t2 =>
      have hnd := List.nodup_dedup s
      rw [hd] at hnd
      have hab : a ≠ b := by
        rcases List.nodup_cons.mp hnd with ⟨hnm, _⟩
        intro hc
        exact hnm (hc ▸ List.mem_cons_self b t2)
      have ha : a ∈ s := List.mem_dedup.mp (hd ▸ List.mem_cons_self a (b :: t2))
      have hb : b ∈ s :=
        List.mem_dedup.mp (hd ▸ List.mem_cons_of_mem a (List.mem_cons_self b t2))
      exact ⟨a, b, ha, hb, hab⟩

theorem s_ne_nil_of_nunique {s : List Val} (h : 1 ≤ nuniqueList s) : s ≠ [] := by
  intro hc
  subst hc
  simp [nuniqueList] at h

/-- Evaluation of qcutInt on all-finite data once its success conditions
hold: the result pairs every row with its bucket label over the
duplicate-free quantile edges. -/
theorem qcutInt_eval (s : List Val) (n : ℕ)
    (hfin : ∀ v ∈ s, v.isFiniteV = true) (hn0 : ¬ (n = 0))
    (hvne : ¬ (finiteVals s = []))
    (hlen2 : ¬ (((qcutEdges (List.insertionSort (· ≤ ·) (finiteVals s)) n).dedup).length < 2)) :
    qcutInt s n = Except.ok
      (s.map (fun v => match v with
        | .num x =>
            labelOf ((qcutEdges (List.insertionSort (· ≤ ·) (finiteVals s)) n).dedup)
              true x
        | _ => BinLabel.nanLabel),
       ((qcutEdges (List.insertionSort (· ≤ ·) (finiteVals s)) n).dedup).map Val.num) := by
  have hinf : s.any Val.isInf = false := any_isInf_false_of_finite hfin
  unfold qcutInt
  rw [if_neg hn0]
  rw [hinf]
  simp only [Bool.false_eq_true, if_false]
  rw [if_neg hvne]
  rw [if_neg hlen2]

/-- Evaluation of safe_binning under the quantile-branch conditions. -/
theorem safe_binning_eval_qcut (s : List Val) (n : ℕ)
    (hfin : ∀ v ∈ s, v.isFiniteV = true) (hn : 1 ≤ n) (hd : n < nuniqueList s)
    (hlen2 : ¬ (((qcutEdges (List.insertionSort (· ≤ ·) (finiteVals s)) n).dedup).length < 2)) :
    safe_binning s n =
      (s.map (fun v => match v with
        | .num x =>
            labelOf ((qcutEdges (List.insertionSort (· ≤ ·) (finiteVals s)) n).dedup)
              true x
        | _ => BinLabel.nanLabel),
       ((qcutEdges (List.insertionSort (· ≤ ·) (finiteVals s)) n).dedup).map Val.num) := by
  have hdrop : dropna s = s := dropna_eq_self_of_finite hfin
  have hne : s ≠ [] := s_ne_nil_of_nunique (by omega)
  have hvne : ¬ (finiteVals s = []) := finiteVals_ne_nil hfin hne
  unfold safe_binning
  dsimp only
  rw [hdrop]
  rw [if_neg (by simpa [List.isEmpty_iff] using hne)]
  rw [if_pos hd]
  rw [qcutInt_eval s n hfin (by omega) hvne hlen2]

theorem qcutEdges_length (sorted : List ℚ) (q : ℕ) :
    (qcutEdges sorted q).length = q + 1 := by
  unfold qcutEdges
  rw [List.length_map, List.length_range]

/-- C5: on an all-finite series whose distinct-value count exceeds the
positive requested bin count, safe_binning performs quantile binning with
duplicate edges dropped and returns strictly increasing edges delimiting at
most bin_count buckets; the buckets are pairwise non-overlapping, every
observed value lies between the first and last edge, every point of that
range falls in some bucket, and every row is labelled with one of the
buckets. -/
theorem safe_binning_quantile_buckets (s : List Val) (n : ℕ)
    (hfin : ∀ v ∈ s, v.isFiniteV = true) (hn : 1 ≤ n) (hd : n < nuniqueList s) :
    ∃ es : List ℚ,
      (safe_binning s n).2 = es.map Val.num ∧
      es.Sorted (· < ·) ∧
      2 ≤ es.length ∧ es.length ≤ n + 1 ∧
      (∀ q ∈ finiteVals s, es.getD 0 0 ≤ q ∧ q ≤ es.getD (es.length - 1) 0) ∧
      (∀ v : ℚ, es.getD 0 0 ≤ v → v ≤ es.getD (es.length - 1) 0 →
        ∃ j, j + 1 < es.length ∧ memBucket es j v) ∧
      (∀ i j v, i < j → j + 1 < es.length → memBucket es i v →
        memBucket es j v → False) ∧
      (∀ lab ∈ (safe_binning s n).1, ∃ j, j + 1 < es.length ∧
        lab = BinLabel.interval (es.getD j 0) (es.getD (j + 1) 0)) := by
  have hne : s ≠ [] := s_ne_nil_of_nunique (by omega)
  have hvne : finiteVals s ≠ [] := finiteVals_ne_nil hfin hne
  have hsorted : (List.insertionSort (· ≤ ·) (finiteVals s)).Sorted (· ≤ ·) :=
    List.sorted_insertionSort _ _
  have hperm : List.Perm (List.insertionSort (· ≤ ·) (finiteVals s)) (finiteVals s) :=
    List.perm_insertionSort _ _
  have hm1 : 1 ≤ (List.insertionSort (· ≤ ·) (finiteVals s)).length := by
    rw [hperm.length_eq]
    exact List.length_pos.mpr hvne
  have hsne : List.insertionSort (· ≤ ·) (finiteVals s) ≠ [] := by
    intro hc
    rw [hc] at hm1
    simp at hm1
  have hedgeSorted := qcutEdges_sorted hsorted hn hm1
  have hUle : ((qcutEdges (List.insertionSort (· ≤ ·) (finiteVals s)) n).dedup).Sorted
      (· ≤ ·) :=
    List.Pairwise.sublist (List.dedup_sublist _) hedgeSorted
  have hUlt := dedup_sorted_lt hedgeSorted
  have hminU : (List.insertionSort (· ≤ ·) (finiteVals s)).getD 0 0 ∈
      (qcutEdges (List.insertionSort (· ≤ ·) (finiteVals s)) n).dedup :=
    List.mem_dedup.mpr (qcutEdges_mem_min n)
  have hmaxU : (List.insertionSort (· ≤ ·) (finiteVals s)).getD
      ((List.insertionSort (· ≤ ·) (finiteVals s)).length - 1) 0 ∈
      (qcutEdges (List.insertionSort (· ≤ ·) (finiteVals s)) n).dedup :=
    List.mem_dedup.mpr (qcutEdges_mem_max hsne hn)
  have h2d : 2 ≤ nuniqueList s := by omega
  obtain ⟨a, b, ha, hb, hab⟩ := exists_two_distinct_of_nunique h2d
  obtain ⟨qa, rfl⟩ : ∃ qa, a = Val.num qa := by
    have hv := hfin a ha
    cases a with
    | num x => exact ⟨x, rfl⟩
    | nan => simp [Val.isFiniteV] at hv
    | pinf => simp [Val.isFiniteV] at hv
    | ninf => simp [Val.isFiniteV] at hv
  obtain ⟨qb, rfl⟩ : ∃ qb, b = Val.num qb := by
    have hv := hfin b hb
    cases b with
    | num x => exact ⟨x, rfl⟩
    | nan => simp [Val.isFiniteV] at hv
    | pinf => simp [Val.isFiniteV] at hv
    | ninf => simp [Val.isFiniteV] at hv
  have hqab : qa ≠ qb := fun hc => hab (by rw [hc])
  have hqa : qa ∈ List.insertionSort (· ≤ ·) (finiteVals s) :=
    hperm.mem_iff.mpr (finiteVals_mem.mpr ha)
  have hqb : qb ∈ List.insertionSort (· ≤ ·) (finiteVals s) :=
    hperm.mem_iff.mpr (finiteVals_mem.mpr hb)
  have hminmax : (List.insertionSort (· ≤ ·) (finiteVals s)).getD 0 0 <
      (List.insertionSort (· ≤ ·) (finiteVals s)).getD
        ((List.insertionSort (· ≤ ·) (finiteVals s)).length - 1) 0 := by
    rcases lt_or_gt_of_ne hqab with hlt | hlt
    · have h1 := sorted_getD_head_le hsorted hqa
      have h2 := sorted_getD_le_last hsorted hqb
      linarith
    · have h1 := sorted_getD_head_le hsorted hqb
      have h2 := sorted_getD_le_last hsorted hqa
      linarith
  have hU2 : 2 ≤ ((qcutEdges (List.insertionSort (· ≤ ·) (finiteVals s)) n).dedup).length :=
    two_le_length_of_mem_ne hminU hmaxU (ne_of_lt hminmax)
  have hUlen : ((qcutEdges (List.insertionSort (· ≤ ·) (finiteVals s)) n).dedup).length
      ≤ n + 1 := by
    have h1 := (List.dedup_sublist
      (qcutEdges (List.insertionSort (· ≤ ·) (finiteVals s)) n)).length_le
    rw [qcutEdges_length] at h1
    exact h1
  have hUbound : ∀ e ∈ (qcutEdges (List.insertionSort (· ≤ ·) (finiteVals s)) n).dedup,
      (List.insertionSort (· ≤ ·) (finiteVals s)).getD 0 0 ≤ e ∧
      e ≤ (List.insertionSort (· ≤ ·) (finiteVals s)).getD
        ((List.insertionSort (· ≤ ·) (finiteVals s)).length - 1) 0 :=
    fun e he => qcutEdges_bounds hsorted hn hm1 e (List.mem_dedup.mp he)
  have hU0 : ((qcutEdges (List.insertionSort (· ≤ ·) (finiteVals s)) n).dedup).getD 0 0 =
      (List.insertionSort (· ≤ ·) (finiteVals s)).getD 0 0 := by
    apply le_antisymm
    · exact sorted_getD_head_le hUle hminU
    · exact (hUbound _ (getD_mem (by omega))).1
  have hUlast : ((qcutEdges (List.insertionSort (· ≤ ·) (finiteVals s)) n).dedup).getD
      (((qcutEdges (List.insertionSort (· ≤ ·) (finiteVals s)) n).dedup).length - 1) 0 =
      (List.insertionSort (· ≤ ·) (finiteVals s)).getD
        ((List.insertionSort (· ≤ ·) (finiteVals s)).length - 1) 0 := by
    apply le_antisymm
    · exact (hUbound _ (getD_mem (by omega))).2
    · exact sorted_getD_le_last hUle hmaxU
  have hlen2 : ¬ (((qcutEdges (List.insertionSort (· ≤ ·) (finiteVals s)) n).dedup).length
      < 2) := by omega
  have heval := safe_binning_eval_qcut s n hfin hn hd hlen2
  refine ⟨(qcutEdges (List.insertionSort (· ≤ ·) (finiteVals s)) n).dedup,
    ?_, hUlt, hU2, hUlen, ?_, ?_, ?_, ?_⟩
  · rw [heval]
  · intro q hq
    have hqm : q ∈ List.insertionSort (· ≤ ·) (finiteVals s) := hperm.mem_iff.mpr hq
    rw [hU0, hUlast]
    exact ⟨sorted_getD_head_le hsorted hqm, sorted_getD_le_last hsorted hqm⟩
  · intro v h1 h2
    obtain ⟨j, hj, _, hmem⟩ := bucketIdx_covers hUlt hU2 h1 h2
    exact ⟨j, hj, hmem⟩
  · intro i j v hij hj hi hjB
    exact memBucket_disjoint hUlt hij hj hi hjB
  · intro lab hlab
    rw [heval] at hlab
    rcases List.mem_map.mp hlab with ⟨v, hv, rfl⟩
    have hvf := hfin v hv
    cases v with
    | num x =>
      have hx : x ∈ List.insertionSort (· ≤ ·) (finiteVals s) :=
        hperm.mem_iff.mpr (finiteVals_mem.mpr hv)
      have h1 : ((qcutEdges (List.insertionSort (· ≤ ·) (finiteVals s)) n).dedup).getD 0 0
          ≤ x := by
        rw [hU0]
        exact sorted_getD_head_le hsorted hx
      have h2 : x ≤ ((qcutEdges (List.insertionSort (· ≤ ·) (finiteVals s)) n).dedup).getD
          (((qcutEdges (List.insertionSort (· ≤ ·) (finiteVals s)) n).dedup).length - 1)
          0 := by
        rw [hUlast]
        exact sorted_getD_le_last hsorted hx
      obtain ⟨j, hj, hbi, _⟩ := bucketIdx_covers hUlt hU2 h1 h2
      refine ⟨j, hj, ?_⟩
      dsimp only
      unfold labelOf
      rw [hbi]
    | nan => simp [Val.isFiniteV] at hvf
    | pinf => simp [Val.isFiniteV] at hvf
    | ninf => simp [Val.isFiniteV] at hvf

unseal Rat.add Rat.mul Rat.inv Rat.sub in
theorem safe_binning_quantile_buckets_witness :
    ∃ es : List ℚ,
      (safe_binning [Val.num 1, Val.num 2, Val.num 3, Val.num 4] 1).2 =
        es.map Val.num ∧
      es.Sorted (· < ·) ∧
      2 ≤ es.length ∧ es.length ≤ 1 + 1 ∧
      (∀ q ∈ finiteVals [Val.num 1, Val.num 2, Val.num 3, Val.num 4],
        es.getD 0 0 ≤ q ∧ q ≤ es.getD (es.length - 1) 0) ∧
      (∀ v : ℚ, es.getD 0 0 ≤ v → v ≤ es.getD (es.length - 1) 0 →
        ∃ j, j + 1 < es.length ∧ memBucket es j v) ∧
      (∀ i j v, i < j → j + 1 < es.length → memBucket es i v →
        memBucket es j v → False) ∧
      (∀ lab ∈ (safe_binning [Val.num 1, Val.num 2, Val.num 3, Val.num 4] 1).1,
        ∃ j, j + 1 < es.length ∧
          lab = BinLabel.interval (es.getD j 0) (es.getD (j + 1) 0)) :=
  safe_binning_quantile_buckets [Val.num 1, Val.num 2, Val.num 3, Val.num 4] 1
    (by decide) (by decide) (by decide)

end AmexApp
